import Mathlib

/-!
Verification of the tile-assignment engine of `imagecollagemaker.py`
(image-collage-maker).  The Python source is shallowly embedded below:
pure numeric code becomes Lean functions over `ℚ` / `ℤ` / `ℕ` (exact
arithmetic in place of IEEE floats), list code becomes `List` functions,
and the flag-resolution logic of the constructors becomes pure record
transformers.  Theorems named `*_spec` settle the specification claims;
`*_witness` theorems instantiate them at concrete inputs, and the
remaining closed theorems evaluate the embedded code at concrete inputs.
-/

/-- Python `round` on an exact rational: round-half-to-even (banker's
rounding), as used by the source in `compute_block_size` and
`MosaicUnfair.__init__`. -/
def pyRound (q : ℚ) : ℤ :=
  let f := ⌊q⌋
  let r := q - (f : ℚ)
  if r < 1/2 then f
  else if 1/2 < r then f + 1
  else if f % 2 = 0 then f else f + 1

/-- `MosaicCommon.compute_block_size` (imagecollagemaker.py, lines 522-536).
Arguments: destination shape `(dh, dw)` (pixels), grid `(gw, gh)`
(columns, rows), tile shape `(th, tw)`.  Returns
`(block_width, block_height)`.  The source computes
`block_height = round(dest_shape[0] / grid[1])`,
`block_width = round(dest_shape[1] / grid[0])`, and if either exceeds the
tile dimensions it rescales both by `m = max(tw / block_width, th / block_height)`
and floors. -/
def compute_block_size (dh dw gw gh th tw : ℕ) : ℤ × ℤ :=
  let block_height : ℤ := pyRound ((dh : ℚ) / (gh : ℚ))
  let block_width : ℤ := pyRound ((dw : ℚ) / (gw : ℚ))
  if (tw : ℤ) < block_width ∨ (th : ℤ) < block_height then
    let m : ℚ := max ((tw : ℚ) / (block_width : ℚ)) ((th : ℚ) / (block_height : ℚ))
    (⌊(block_width : ℚ) * m⌋, ⌊(block_height : ℚ) * m⌋)
  else (block_width, block_height)

/-- Claim C6: the claim says that whenever a derived block dimension exceeds
the tile's native dimension, both block dimensions are rescaled by one common
factor so that afterwards *neither* exceeds the tile.  The code uses
`m = max(tw/bw, th/bh)` where only `min` achieves that guarantee: for a
1000×1000 destination, a 10×10 grid and 10×50 (w×h) tiles the raw block is
100×100, the factor is `max(10/100, 50/100) = 1/2`, and the rescaled block
is 50×50 — its width 50 still exceeds the tile width 10.  This contradicts
the stated purpose (preventing upsampling), so it is evidence of a code bug
rather than a spec error. -/
theorem compute_block_size_exceeds_tile :
    compute_block_size 1000 1000 10 10 50 10 = (50, 50) ∧
    (10 : ℤ) < (compute_block_size 1000 1000 10 10 50 10).1 := by
  have h : compute_block_size 1000 1000 10 10 50 10 = (50, 50) := by
    unfold compute_block_size pyRound
    norm_num [max_def]
  exact ⟨h, by rw [h]; norm_num⟩

/-- `MosaicUnfair.__init__` grid computation (lines 681-683):
`grid = (max_width, round(dh * (max_width * tw / dw) / th))`. -/
def unfairGrid (dh dw th tw max_width : ℕ) : ℕ × ℤ :=
  (max_width, pyRound ((dh : ℚ) * ((max_width : ℚ) * (tw : ℚ) / (dw : ℚ)) / (th : ℚ)))

/-- The grid height as worded by claim C10:
`round(dest_height * (max_width * tile_width / dest_width) / tile_height)`. -/
def claimedUnfairGridHeight (dh dw th tw max_width : ℕ) : ℤ :=
  pyRound ((dh : ℚ) * ((max_width : ℚ) * (tw : ℚ) / (dw : ℚ)) / (th : ℚ))

/-- Claim C10: in unfair mode the grid width equals the `max_width` parameter
exactly (it is the grid width itself, not an upper bound), and the grid
height is `round(dest_height * (max_width * tile_width / dest_width) / tile_height)`
with Python's `round`. -/
theorem unfairGrid_spec :
    ∀ dh dw th tw max_width : ℕ,
      (unfairGrid dh dw th tw max_width).1 = max_width ∧
      (unfairGrid dh dw th tw max_width).2 = claimedUnfairGridHeight dh dw th tw max_width :=
  fun _ _ _ _ _ => ⟨rfl, rfl⟩

/-- Chunk row stride, `MosaicUnfair.__init__` lines 697-709:
`row_stride = (LIMIT - (img_keys.size + num_rows * (1 + flat_block_size)) * 4) // (num_cols * 4)`,
then floor-divided by 16 when `freq_mul > 0` and by 4 otherwise.
Python `//` on integers is floor division, i.e. `Int.fdiv`. -/
def row_stride_raw (limit imgKeysSize numRows flatBlockSize numCols : ℤ) : ℤ :=
  Int.fdiv (limit - (imgKeysSize + numRows * (1 + flatBlockSize)) * 4) (numCols * 4)

/-- The final chunk row stride, after the `freq_mul` branch of
`MosaicUnfair.__init__`.  No clamping to a minimum value occurs anywhere. -/
def row_stride (limit imgKeysSize numRows flatBlockSize numCols : ℤ) (freqPos : Bool) : ℤ :=
  if freqPos then Int.fdiv (row_stride_raw limit imgKeysSize numRows flatBlockSize numCols) 16
  else Int.fdiv (row_stride_raw limit imgKeysSize numRows flatBlockSize numCols) 4

/-- Block-size clamp of `calc_salient_col_even` (lines 603-613): when the
DDA shrink loop reaches a non-positive block dimension, a warning is printed
(modelled by the returned Boolean) and both dimensions are clamped with
`max(·, 1)`. -/
def salient_clamp_block (bw bh : ℤ) : ℤ × ℤ × Bool :=
  if bw ≤ 0 ∨ bh ≤ 0 then (max bw 1, max bh 1, true) else (bw, bh, false)

/-- Claim C9, counterexample: the claim says a collapsed (zero or negative)
chunk row-stride is replaced by the minimum viable value 1.  In the code the
stride is never clamped: with memory limit 0 and a 1×1 problem the computed
stride is -1 and is used as-is. -/
theorem row_stride_not_clamped :
    row_stride 0 1 1 1 1 false = -1 ∧ row_stride 0 1 1 1 1 false < 1 := by decide

/-- Claim C9 (amended): only the salient fair mode (`calc_salient_col_even`)
degrades a collapsed block size to the minimum viable value 1 with a warning
(the warning fires exactly when a dimension is non-positive, and positive
dimensions pass through unchanged, since `max b 1 = b` for `b ≥ 1`); the
unfair-mode chunk row-stride of `MosaicUnfair.__init__` is *not* clamped and
can remain non-positive. -/
theorem salient_clamp_block_spec :
    (∀ bw bh : ℤ,
      (salient_clamp_block bw bh).1 = max bw 1 ∧
      (salient_clamp_block bw bh).2.1 = max bh 1 ∧
      1 ≤ (salient_clamp_block bw bh).1 ∧
      1 ≤ (salient_clamp_block bw bh).2.1 ∧
      ((salient_clamp_block bw bh).2.2 = true ↔ bw ≤ 0 ∨ bh ≤ 0)) ∧
    row_stride 0 1 1 1 1 false = -1 := by
  refine ⟨fun bw bh => ?_, by decide⟩
  unfold salient_clamp_block
  by_cases h : bw ≤ 0 ∨ bh ≤ 0
  · rw [if_pos h]
    exact ⟨rfl, rfl, le_max_right _ _, le_max_right _ _, by simpa using h⟩
  · rw [if_neg h]
    push_neg at h
    obtain ⟨h1, h2⟩ := h
    refine ⟨(max_eq_left (show (1:ℤ) ≤ bw by omega)).symm,
      (max_eq_left (show (1:ℤ) ≤ bh by omega)).symm,
      (by omega : (1:ℤ) ≤ bw), (by omega : (1:ℤ) ≤ bh), ?_⟩
    simp only [Bool.false_eq_true, false_iff]
    omega

/-- Warnings that `MosaicUnfair.__init__` (lines 713-734) can print while
resolving conflicting option flags. -/
inductive UnfairWarning
  | ditherOffTransparent
  | saliencyOffTransparent
  | saliencyOffDither
  | randomizeOffDither
  deriving DecidableEq

/-- The option state produced by `MosaicUnfair.__init__`'s flag resolution. -/
structure UnfairModeFlags where
  dither : Bool
  randomize : Bool
  saliencyOn : Bool
  warnings : List UnfairWarning
  deriving DecidableEq

/-- Flag resolution of `MosaicUnfair.__init__` (lines 713-734).
Inputs mirror the constructor arguments: `dither`, `randomize`,
`transparent`, and `saliencyEnabled` (i.e. `lower_thresh is not None`).
Branch structure follows the source: the `transparent` branch turns
dithering off; the `elif self.dither` branch leaves saliency off and turns
randomization off; otherwise saliency is activated.  (The GPU-speed warning
is omitted: the CPU backend is modelled.) -/
def resolve_unfair_flags (dither randomize transparent saliencyEnabled : Bool) : UnfairModeFlags :=
  if transparent then
    { dither := false, randomize := randomize, saliencyOn := false,
      warnings := (if dither then [UnfairWarning.ditherOffTransparent] else []) ++
                  (if saliencyEnabled then [UnfairWarning.saliencyOffTransparent] else []) }
  else if dither then
    { dither := true, randomize := false, saliencyOn := false,
      warnings := (if saliencyEnabled then [UnfairWarning.saliencyOffDither] else []) ++
                  (if randomize then [UnfairWarning.randomizeOffDither] else []) }
  else
    { dither := dither, randomize := randomize, saliencyOn := saliencyEnabled, warnings := [] }

/-- Claim C8, counterexample: the claim says dithering wins against masking
for *every* combination of the flags, but when transparency masking is
requested together with dithering, the transparency branch wins and
dithering is disabled with a warning. -/
theorem resolve_unfair_flags_transparent_beats_dither :
    (resolve_unfair_flags true false true false).dither = false ∧
    (resolve_unfair_flags true false true false).warnings =
      [UnfairWarning.ditherOffTransparent] := by decide

/-- Claim C8 (amended): when transparency masking is *not* requested,
dithering wins over saliency masking and over randomized row order for every
combination of those flags: the run proceeds with dithering enabled,
saliency stays disabled (with a warning exactly when it was requested), and
randomization is turned off (with a warning exactly when it was requested);
when transparency masking is requested together with dithering, dithering is
instead the option that is disabled, with a warning. -/
theorem resolve_unfair_flags_spec :
    ∀ randomize saliencyEnabled : Bool,
      (resolve_unfair_flags true randomize false saliencyEnabled).dither = true ∧
      (resolve_unfair_flags true randomize false saliencyEnabled).randomize = false ∧
      (resolve_unfair_flags true randomize false saliencyEnabled).saliencyOn = false ∧
      (UnfairWarning.saliencyOffDither ∈
          (resolve_unfair_flags true randomize false saliencyEnabled).warnings ↔
        saliencyEnabled = true) ∧
      (UnfairWarning.randomizeOffDither ∈
          (resolve_unfair_flags true randomize false saliencyEnabled).warnings ↔
        randomize = true) ∧
      (resolve_unfair_flags true randomize true saliencyEnabled).dither = false ∧
      (UnfairWarning.ditherOffTransparent ∈
        (resolve_unfair_flags true randomize true saliencyEnabled).warnings) := by decide

/-- Python list repetition `imgs * n`. -/
def listRepeat (l : List α) : ℕ → List α
  | 0 => []
  | n + 1 => l ++ listRepeat l n

theorem listRepeat_length (l : List α) : ∀ n, (listRepeat l n).length = n * l.length := by
  intro n
  induction n with
  | zero => simp [listRepeat]
  | succ k ih => simp [listRepeat, ih, Nat.succ_mul, Nat.add_comm]

theorem listRepeat_count [DecidableEq α] (l : List α) (a : α) :
    ∀ n, (listRepeat l n).count a = n * l.count a := by
  intro n
  induction n with
  | zero => simp [listRepeat]
  | succ k ih => simp [listRepeat, List.count_append, ih, Nat.succ_mul, Nat.add_comm]

/-- `dup_to_meet_total` (imagecollagemaker.py, lines 407-426).  If fewer
tiles are requested than exist, the pool is truncated; otherwise the whole
pool is repeated `total // len` times (`imgs *= full_count`) and the first
`total % len` tiles of the repeated pool are appended
(`imgs.extend(imgs[:remaining])`). -/
def dup_to_meet_total (imgs : List α) (total : ℕ) : List α :=
  if total < imgs.length then imgs.take total
  else
    let full_count := total / imgs.length
    let remaining := total % imgs.length
    let imgs2 := listRepeat imgs full_count
    imgs2 ++ imgs2.take remaining

/-- The user-visible accounting printed by `dup_to_meet_total`. -/
inductive DupReport
  | truncated (used dropped : ℕ)
  | uneven (usedFullCount fullCount usedOneExtra : ℕ)
  | even (numTiles fullCount : ℕ)
  deriving DecidableEq

/-- The report printed by `dup_to_meet_total` (lines 413, 422, 425):
which tile counts are dropped/reused. -/
def dup_report (origLen total : ℕ) : DupReport :=
  if total < origLen then DupReport.truncated total (origLen - total)
  else
    let full_count := total / origLen
    let remaining := total % origLen
    if 0 < remaining then DupReport.uneven (origLen - remaining) full_count remaining
    else DupReport.even origLen full_count

/-- Claim C1: in fair mode (`MosaicFair.__init__` computes
`total = columns * rows` and calls `dup_to_meet_total`), for every non-empty
tile pool the pre-duplicated pool has length exactly `total`; every original
tile is used either `total / len` or `total / len + 1` times (usage within
±1 of uniform); when `total` is smaller than the pool, the pool is truncated
to exactly `total` tiles, each retained tile used once, and the number of
dropped tiles is reported; otherwise the reused-tile accounting is reported. -/
theorem dup_to_meet_total_spec {α : Type} [DecidableEq α] (imgs : List α) (total : ℕ)
    (hne : imgs ≠ []) (hnd : imgs.Nodup) :
    (dup_to_meet_total imgs total).length = total ∧
    (∀ a ∈ imgs,
      (dup_to_meet_total imgs total).count a = total / imgs.length ∨
      (dup_to_meet_total imgs total).count a = total / imgs.length + 1) ∧
    (total < imgs.length →
      dup_to_meet_total imgs total = imgs.take total ∧
      (∀ a ∈ dup_to_meet_total imgs total, (dup_to_meet_total imgs total).count a = 1) ∧
      dup_report imgs.length total = DupReport.truncated total (imgs.length - total)) ∧
    (imgs.length ≤ total →
      dup_report imgs.length total =
        if 0 < total % imgs.length then
          DupReport.uneven (imgs.length - total % imgs.length) (total / imgs.length)
            (total % imgs.length)
        else DupReport.even imgs.length (total / imgs.length)) := by
  have hlen : 0 < imgs.length := List.length_pos.mpr hne
  by_cases hlt : total < imgs.length
  · have hdup : dup_to_meet_total imgs total = imgs.take total := by
      unfold dup_to_meet_total; rw [if_pos hlt]
    have hndt : (imgs.take total).Nodup := List.Nodup.sublist (List.take_sublist _ _) hnd
    refine ⟨?_, ?_, fun _ => ⟨hdup, ?_, ?_⟩, fun hge => absurd hge (by omega)⟩
    · rw [hdup, List.length_take]; omega
    · intro a _
      rw [hdup, Nat.div_eq_of_lt hlt]
      by_cases hmem : a ∈ imgs.take total
      · right
        rw [List.count_eq_one_of_mem hndt hmem]
      · left
        exact List.count_eq_zero.mpr hmem
    · intro a ha
      rw [hdup] at ha ⊢
      exact List.count_eq_one_of_mem hndt ha
    · unfold dup_report; rw [if_pos hlt]
  · push_neg at hlt
    have hfc1 : 1 ≤ total / imgs.length := (Nat.one_le_div_iff hlen).mpr hlt
    have hrlt : total % imgs.length < imgs.length := Nat.mod_lt _ hlen
    have hdup : dup_to_meet_total imgs total =
        listRepeat imgs (total / imgs.length) ++
          (listRepeat imgs (total / imgs.length)).take (total % imgs.length) := by
      unfold dup_to_meet_total; rw [if_neg (by omega)]
    obtain ⟨k, hk⟩ : ∃ k, total / imgs.length = k + 1 :=
      ⟨total / imgs.length - 1, by omega⟩
    have htake : (listRepeat imgs (total / imgs.length)).take (total % imgs.length) =
        imgs.take (total % imgs.length) := by
      rw [hk]
      simp only [listRepeat]
      exact List.take_append_of_le_length (by omega)
    refine ⟨?_, ?_, fun hcontra => absurd hcontra (by omega), fun _ => ?_⟩
    · rw [hdup, List.length_append, listRepeat_length, htake, List.length_take,
        Nat.min_eq_left (le_of_lt hrlt), Nat.mul_comm]
      exact Nat.div_add_mod total imgs.length
    · intro a ha
      have h1 : (listRepeat imgs (total / imgs.length)).count a = total / imgs.length := by
        rw [listRepeat_count, List.count_eq_one_of_mem hnd ha, Nat.mul_one]
      have hndt : (imgs.take (total % imgs.length)).Nodup :=
        List.Nodup.sublist (List.take_sublist _ _) hnd
      have h2 : (imgs.take (total % imgs.length)).count a ≤ 1 :=
        List.nodup_iff_count_le_one.mp hndt a
      rw [hdup, List.count_append, h1, htake]
      omega
    · unfold dup_report
      rw [if_neg (by omega)]

/-- Witness for claim C1: the hypotheses of `dup_to_meet_total_spec` hold at
the concrete pool `[0, 1, 2]` with `total = 7` (e.g. a 7-cell grid). -/
theorem dup_to_meet_total_spec_witness :
    ([0, 1, 2] : List ℕ) ≠ [] ∧ ([0, 1, 2] : List ℕ).Nodup ∧
    ((dup_to_meet_total [0, 1, 2] 7).length = 7 ∧
     (∀ a ∈ ([0, 1, 2] : List ℕ),
       (dup_to_meet_total [0, 1, 2] 7).count a = 7 / ([0, 1, 2] : List ℕ).length ∨
       (dup_to_meet_total [0, 1, 2] 7).count a = 7 / ([0, 1, 2] : List ℕ).length + 1) ∧
     (7 < ([0, 1, 2] : List ℕ).length →
       dup_to_meet_total [0, 1, 2] 7 = ([0, 1, 2] : List ℕ).take 7 ∧
       (∀ a ∈ dup_to_meet_total [0, 1, 2] 7, (dup_to_meet_total [0, 1, 2] 7).count a = 1) ∧
       dup_report ([0, 1, 2] : List ℕ).length 7 =
         DupReport.truncated 7 (([0, 1, 2] : List ℕ).length - 7)) ∧
     (([0, 1, 2] : List ℕ).length ≤ 7 →
       dup_report ([0, 1, 2] : List ℕ).length 7 =
         if 0 < 7 % ([0, 1, 2] : List ℕ).length then
           DupReport.uneven (([0, 1, 2] : List ℕ).length - 7 % ([0, 1, 2] : List ℕ).length)
             (7 / ([0, 1, 2] : List ℕ).length) (7 % ([0, 1, 2] : List ℕ).length)
         else DupReport.even ([0, 1, 2] : List ℕ).length (7 / ([0, 1, 2] : List ℕ).length))) :=
  ⟨by decide, by decide, dup_to_meet_total_spec [0, 1, 2] 7 (by decide) (by decide)⟩

/-- `math.ceil(num_imgs / width)` as used in `calc_grid_size` (line 232). -/
def ceilDiv (a b : ℕ) : ℕ := (a + b - 1) / b

theorem ceilDiv_pos (a b : ℕ) (ha : 1 ≤ a) (hb : 1 ≤ b) : 1 ≤ ceilDiv a b := by
  unfold ceilDiv
  rw [Nat.one_le_div_iff (by omega)]
  omega

theorem le_mul_ceilDiv (a b : ℕ) (hb : 1 ≤ b) : a ≤ b * ceilDiv a b := by
  unfold ceilDiv
  have h := Nat.div_add_mod (a + b - 1) b
  have h2 : (a + b - 1) % b < b := Nat.mod_lt _ (by omega)
  omega

/-- The candidate list `possible_wh` of `calc_grid_size` (lines 229-233):
for each `width` in Python's `range(1, num_imgs)` the triple
`(width * tw / (th * height), width, height)` with
`height = ceil(num_imgs / width)`. -/
def possible_wh (num_imgs tw th : ℕ) : List (ℚ × ℕ × ℕ) :=
  (List.range' 1 (num_imgs - 1)).map (fun (width : ℕ) =>
    (((width : ℚ) * (tw : ℚ)) / ((th : ℚ) * (ceilDiv num_imgs width : ℚ)),
     width, ceilDiv num_imgs width))

/-- Python `min(xs, key=k)`: returns the first minimizer; `none` models the
`ValueError` raised on an empty sequence. -/
def pyMinBy (key : α → ℚ) : List α → Option α
  | [] => none
  | x :: xs => some (xs.foldl (fun best y => if key y < key best then y else best) x)

/-- `calc_grid_size` (lines 221-239): the candidate minimizing the squared
deviation of its mosaic ratio from the destination ratio `rw / rh`, first
minimizer on ties.  Returns the `(width, height)` component. -/
def calc_grid_size (rw rh num_imgs tw th : ℕ) : Option (ℕ × ℕ) :=
  (pyMinBy (fun x => (x.1 - (rw : ℚ) / (rh : ℚ))^2) (possible_wh num_imgs tw th)).map
    (fun x => x.2)

/-- Squared deviation of the mosaic aspect ratio of grid `(w, h)` from the
target ratio `rw / rh`, for tile shape `(th, tw)` — the quantity claim C2
says is minimized. -/
def ratioDev (rw rh tw th w h : ℕ) : ℚ :=
  (((w : ℚ) * (tw : ℚ)) / ((th : ℚ) * (h : ℚ)) - (rw : ℚ) / (rh : ℚ))^2

theorem foldlMin_spec (key : α → ℚ) :
    ∀ (xs : List α) (x : α),
      (xs.foldl (fun best y => if key y < key best then y else best) x = x ∨
        xs.foldl (fun best y => if key y < key best then y else best) x ∈ xs) ∧
      key (xs.foldl (fun best y => if key y < key best then y else best) x) ≤ key x ∧
      ∀ y ∈ xs, key (xs.foldl (fun best y => if key y < key best then y else best) x) ≤ key y := by
  intro xs
  induction xs with
  | nil => intro x; exact ⟨Or.inl rfl, le_refl _, by simp⟩
  | cons y ys ih =>
    intro x
    simp only [List.foldl_cons]
    obtain ⟨hmem, hle, hall⟩ := ih (if key y < key x then y else x)
    have hsx : key (if key y < key x then y else x) ≤ key x := by
      split_ifs with hc
      · exact le_of_lt hc
      · exact le_refl _
    have hsy : key (if key y < key x then y else x) ≤ key y := by
      split_ifs with hc
      · exact le_refl _
      · exact le_of_not_lt hc
    refine ⟨?_, le_trans hle hsx, ?_⟩
    · rcases hmem with h | h
      · rw [h]
        split_ifs with hc
        · exact Or.inr (List.mem_cons_self _ _)
        · exact Or.inl rfl
      · exact Or.inr (List.mem_cons_of_mem _ h)
    · intro z hz
      rcases List.mem_cons.mp hz with h | h
      · rw [h]; exact le_trans hle hsy
      · exact hall z h

theorem pyMinBy_spec (key : α → ℚ) (l : List α) (x : α) (h : pyMinBy key l = some x) :
    x ∈ l ∧ ∀ y ∈ l, key x ≤ key y := by
  cases l with
  | nil => simp [pyMinBy] at h
  | cons a as =>
    simp only [pyMinBy, Option.some.injEq] at h
    obtain ⟨hmem, hle, hall⟩ := foldlMin_spec key as a
    rw [h] at hmem hle hall
    constructor
    · rcases hmem with h' | h'
      · rw [h']; exact List.mem_cons_self _ _
      · exact List.mem_cons_of_mem _ h'
    · intro y hy
      rcases List.mem_cons.mp hy with h' | h'
      · rw [h']; exact hle
      · exact hall y h'

/-- Claim C2, counterexample: the claim asserts the returned grid's squared
ratio deviation is minimal among *all* valid grids `(w, h)` with
`w * h ≥ n`, for every `n ≥ 1`.  With `n = 4`, 1×1 tiles and target ratio
4:1 the code returns `(3, 2)` (deviation 25/4), yet the valid grid `(4, 1)`
has deviation 0, because the code only examines candidates
`(w, ceil(n / w))` for `w ∈ [1, n)`.  Moreover for `n = 1` the candidate
list is empty and Python's `min` raises (modelled by `none`), so no grid is
returned at all. -/
theorem calc_grid_size_counterexample :
    calc_grid_size 4 1 4 1 1 = some (3, 2) ∧
    4 ≤ 4 * 1 ∧
    ratioDev 4 1 1 1 4 1 < ratioDev 4 1 1 1 3 2 ∧
    calc_grid_size 4 1 1 1 1 = none := by
  refine ⟨?_, by norm_num, ?_, by rfl⟩
  · have hr : List.range' 1 (4 - 1) = [1, 2, 3] := rfl
    unfold calc_grid_size possible_wh
    rw [hr]
    simp only [List.map_cons, List.map_nil]
    unfold pyMinBy
    simp only [List.foldl_cons, List.foldl_nil]
    norm_num [ceilDiv]
  · unfold ratioDev
    norm_num

/-- Claim C2 (amended): for every `num_imgs ≥ 2`, `calc_grid_size` returns a
grid `(w, h)` with `1 ≤ w < num_imgs`, `h = ceil(num_imgs / w) ≥ 1` and
`w * h ≥ num_imgs`, obtained by iterating candidate widths `w` ascending
over `[1, num_imgs)` with `h = ceil(num_imgs / w)` and taking the first
minimizer of the squared ratio deviation; the returned grid's deviation is
≤ the deviation of every *candidate* grid of that form (not of every valid
grid, and nothing is returned for `num_imgs = 1`). -/
theorem calc_grid_size_spec (rw rh num_imgs tw th : ℕ) (h2 : 2 ≤ num_imgs) :
    ∃ w h, calc_grid_size rw rh num_imgs tw th = some (w, h) ∧
      1 ≤ w ∧ w < num_imgs ∧ h = ceilDiv num_imgs w ∧ 1 ≤ h ∧ num_imgs ≤ w * h ∧
      ∀ w' ∈ List.range' 1 (num_imgs - 1),
        ratioDev rw rh tw th w h ≤ ratioDev rw rh tw th w' (ceilDiv num_imgs w') := by
  obtain ⟨c, cs, hcands⟩ : ∃ c cs, possible_wh num_imgs tw th = c :: cs := by
    have hlen : (possible_wh num_imgs tw th).length = num_imgs - 1 := by
      simp [possible_wh]
    cases hcs : possible_wh num_imgs tw th with
    | nil => rw [hcs] at hlen; simp at hlen; omega
    | cons c cs => exact ⟨c, cs, rfl⟩
  have hpm : ∃ t, pyMinBy (fun x => (x.1 - (rw : ℚ) / (rh : ℚ))^2)
      (possible_wh num_imgs tw th) = some t := by
    rw [hcands]; exact ⟨_, rfl⟩
  obtain ⟨t, ht⟩ := hpm
  obtain ⟨hmem, hall⟩ := pyMinBy_spec _ _ _ ht
  unfold possible_wh at hmem
  obtain ⟨w, hw, hwt⟩ := List.mem_map.mp hmem
  have hwr := List.mem_range'_1.mp hw
  subst hwt
  refine ⟨w, ceilDiv num_imgs w, ?_, by omega, by omega, rfl,
    ceilDiv_pos _ _ (by omega) (by omega), le_mul_ceilDiv _ _ (by omega), ?_⟩
  · exact congrArg (Option.map (fun x : ℚ × ℕ × ℕ => x.2)) ht
  · intro w' hw'
    have hmem' : (fun (width : ℕ) =>
        (((width : ℚ) * (tw : ℚ)) / ((th : ℚ) * (ceilDiv num_imgs width : ℚ)),
         width, ceilDiv num_imgs width)) w' ∈ possible_wh num_imgs tw th := by
      unfold possible_wh
      exact List.mem_map_of_mem _ hw'
    have hres := hall _ hmem'
    exact hres

/-- Witness for claim C2 (amended), at the spec's end-to-end scenario:
12 tiles of 10×10 px and target ratio 4:3. -/
theorem calc_grid_size_spec_witness :
    2 ≤ 12 ∧
    (∃ w h, calc_grid_size 4 3 12 10 10 = some (w, h) ∧
      1 ≤ w ∧ w < 12 ∧ h = ceilDiv 12 w ∧ 1 ≤ h ∧ 12 ≤ w * h ∧
      ∀ w' ∈ List.range' 1 (12 - 1),
        ratioDev 4 3 10 10 w h ≤ ratioDev 4 3 10 10 w' (ceilDiv 12 w')) :=
  ⟨by decide, calc_grid_size_spec 4 3 12 10 10 (by decide)⟩

/-- Componentwise dot product of two flattened feature vectors
(`cp.inner` / `A.dot(B.T)` restricted to one row and one column). -/
def dotL (a b : List ℚ) : ℚ := (List.zipWith (fun x y => x * y) a b).sum

/-- `cp.sum(A**2)` for one row: the sum of squared entries. -/
def sqSum (a : List ℚ) : ℚ := dotL a a

/-- `fast_sq_euclidean` (lines 156-160): `AB *= -2; AB += Asq; AB += Bsq`. -/
def fast_sq_euclidean (Asq Bsq AB : ℚ) : ℚ := AB * (-2) + Asq + Bsq

/-- `v / np.linalg.norm(v)` with the square root abstracted as a parameter
(the L2 norm is irrational on most inputs; claim C4 needs no property of
it, so the embedding quantifies over the function). -/
def l2normalize (sqrt : ℚ → ℚ) (v : List ℚ) : List ℚ :=
  v.map (fun x => x / sqrt (sqSum v))

/-- The four distance metrics of `CachedCDist` (lines 462-485). -/
inductive Metric
  | euclidean
  | cosine
  | cityblock
  | chebyshev
  deriving DecidableEq

/-- One row of the distance matrix of `CachedCDist.__call__` for a single
destination block `a` against the tile matrix `B`: `_euclidean` uses the
`|a|² + |b|² - 2a·b` expansion via `fast_sq_euclidean`, `_cosine` is
`1 - inner(a/|a|, b/|b|)` (with `B` pre-normalized in `CachedCDist`),
`fast_cityblock` sums absolute differences and `fast_chebyshev` takes their
maximum (lines 156-172, 429-448, 462-485).  NumPy broadcasting computes
each output row from the corresponding row of `A` alone. -/
def cdistRow (m : Metric) (sqrt : ℚ → ℚ) (B : List (List ℚ)) (a : List ℚ) : List ℚ :=
  match m with
  | Metric.euclidean => B.map (fun b => fast_sq_euclidean (sqSum a) (sqSum b) (dotL a b))
  | Metric.cosine => B.map (fun b => 1 - dotL (l2normalize sqrt a) (l2normalize sqrt b))
  | Metric.cityblock => B.map (fun b => (List.zipWith (fun x y => |x - y|) a b).sum)
  | Metric.chebyshev => B.map (fun b => (List.zipWith (fun x y => |x - y|) a b).foldr max 0)

/-- Fuel-indexed chunk loop shared by `_other` (lines 438-448) and the
chunked assignment loop of `MosaicUnfair.process_dest_img` (lines 858-867):
while more than `stride` rows remain, one chunk of `stride` rows is
processed and consumed; the final group of at most `stride` rows is
processed in one last pass.  The fuel argument only serves termination;
`A.length` steps always suffice when `stride ≥ 1` (with `stride = 0` the
Python loop would not terminate either). -/
def chunkedMapFuel (f : α → β) (stride : ℕ) : ℕ → List α → List β
  | 0, _ => []
  | fuel + 1, A =>
    if A.length ≤ stride then A.map f
    else (A.take stride).map f ++ chunkedMapFuel f stride fuel (A.drop stride)

/-- Row-chunked computation of a row-wise matrix function. -/
def chunkedMap (f : α → β) (stride : ℕ) (A : List α) : List β :=
  chunkedMapFuel f stride A.length A

/-- The distance matrix computed chunk by chunk with row stride `stride`. -/
def cdistChunked (m : Metric) (sqrt : ℚ → ℚ) (B : List (List ℚ)) (stride : ℕ)
    (A : List (List ℚ)) : List (List ℚ) :=
  chunkedMap (cdistRow m sqrt B) stride A

/-- The distance matrix computed in a single pass over all rows of `A`. -/
def cdistFull (m : Metric) (sqrt : ℚ → ℚ) (B : List (List ℚ))
    (A : List (List ℚ)) : List (List ℚ) :=
  A.map (cdistRow m sqrt B)

theorem chunkedMapFuel_eq (f : α → β) (stride : ℕ) (hs : 1 ≤ stride) :
    ∀ (fuel : ℕ) (A : List α), A.length ≤ fuel →
      chunkedMapFuel f stride fuel A = A.map f := by
  intro fuel
  induction fuel with
  | zero =>
    intro A hA
    have hnil : A = [] := List.eq_nil_of_length_eq_zero (by omega)
    subst hnil
    rfl
  | succ k ih =>
    intro A hA
    show (if A.length ≤ stride then A.map f
      else (A.take stride).map f ++ chunkedMapFuel f stride k (A.drop stride)) = A.map f
    by_cases hle : A.length ≤ stride
    · rw [if_pos hle]
    · rw [if_neg hle]
      rw [ih (A.drop stride) (by rw [List.length_drop]; omega)]
      rw [← List.map_append, List.take_append_drop]

/-- Claim C4: for every supported metric, every row stride ≥ 1, and the same
destination-block matrix `A` and tile matrix `B`, computing the distance
matrix in stride-sized row chunks yields exactly the same matrix as a single
pass (exact equality under exact arithmetic; the claim's 1e-4 relative
tolerance only accommodates floating-point rounding). -/
theorem cdistChunked_spec (m : Metric) (sqrt : ℚ → ℚ) (B : List (List ℚ))
    (stride : ℕ) (A : List (List ℚ)) (hs : 1 ≤ stride) :
    cdistChunked m sqrt B stride A = cdistFull m sqrt B A :=
  chunkedMapFuel_eq _ _ hs _ _ (le_refl _)

/-- Witness for claim C4: chunked equals single-pass at a concrete
3-row destination matrix against 2 tiles with stride 1. -/
theorem cdistChunked_spec_witness :
    1 ≤ 1 ∧
    cdistChunked Metric.euclidean id [[1, 0], [0, 1]] 1 [[2, 3], [4, 5], [6, 7]] =
      cdistFull Metric.euclidean id [[1, 0], [0, 1]] [[2, 3], [4, 5], [6, 7]] :=
  ⟨by decide, cdistChunked_spec Metric.euclidean id [[1, 0], [0, 1]] 1
    [[2, 3], [4, 5], [6, 7]] (by decide)⟩

/-- Componentwise vector addition (NumPy `+=` on equal-shape blocks). -/
def vadd (a b : List ℚ) : List ℚ := List.zipWith (fun x y => x + y) a b

/-- Componentwise vector subtraction. -/
def vsub (a b : List ℚ) : List ℚ := List.zipWith (fun x y => x - y) a b

/-- Scalar multiple of a vector. -/
def smulL (c : ℚ) (v : List ℚ) : List ℚ := v.map (fun x => c * x)

/-- `np.argmin` on one row: index of the first minimum (0 on empty input). -/
def argminIdx : List ℚ → ℕ
  | [] => 0
  | x :: xs =>
    let r := argminIdx xs
    if x ≤ xs.getD r x then 0 else r + 1

/-- The error-diffusion coefficients of the dither loop (line 755):
`[0.4375, 0.1875, 0.3125, 0.0625] = [7/16, 3/16, 5/16, 1/16]`
(each exactly representable as a float). -/
def ditherCoeffs : List ℚ := [7/16, 3/16, 5/16, 1/16]

/-- The quantization error of a block: chosen tile's feature vector
subtracted from the block vector (`block - self.img_keys[best_i]`,
line 848). -/
def ditherErr (cdist : List ℚ → List ℚ) (img_keys : List (List ℚ))
    (block : List ℚ) : List ℚ :=
  vsub block (img_keys.getD (argminIdx (cdist block)) [])

/-- One interior step of the dither loop of `MosaicUnfair.process_dest_img`
(lines 843-851): at block `(i, j)` the nearest tile is chosen by `argmin`
over the block's `cdist` row; the quantization error, scaled by the four
coefficients, is added to the blocks right (`dest_img[i, j+1]`), below-left,
below and below-right (`dest_img[i+1, j-1:j+2]`).  Returns the updated grid
of destination vectors and the chosen tile index. -/
def ditherStep (cdist : List ℚ → List ℚ) (img_keys : List (List ℚ))
    (g : ℕ × ℕ → List ℚ) (i j : ℕ) : (ℕ × ℕ → List ℚ) × ℕ :=
  let block := g (i, j)
  let best := argminIdx (cdist block)
  let err := vsub block (img_keys.getD best [])
  (fun p =>
    if p = (i, j + 1) then vadd (g p) (smulL (ditherCoeffs.getD 0 0) err)
    else if p = (i + 1, j - 1) then vadd (g p) (smulL (ditherCoeffs.getD 1 0) err)
    else if p = (i + 1, j) then vadd (g p) (smulL (ditherCoeffs.getD 2 0) err)
    else if p = (i + 1, j + 1) then vadd (g p) (smulL (ditherCoeffs.getD 3 0) err)
    else g p, best)

/-- One row `i < rows - 1` of the dither traversal (lines 840-853): a plain
nearest-tile assignment at column 0, `ditherStep` at the interior columns
`1 .. cols-2` in ascending order, and a plain assignment at the last
column. -/
def ditherRow (cdist : List ℚ → List ℚ) (img_keys : List (List ℚ)) (cols i : ℕ)
    (st : (ℕ × ℕ → List ℚ) × (ℕ × ℕ → ℕ)) : (ℕ × ℕ → List ℚ) × (ℕ × ℕ → ℕ) :=
  let st1 := (st.1, Function.update st.2 (i, 0) (argminIdx (cdist (st.1 (i, 0)))))
  let st2 := (List.range' 1 (cols - 2)).foldl (fun s j =>
    let r := ditherStep cdist img_keys s.1 i j
    (r.1, Function.update s.2 (i, j) r.2)) st1
  (st2.1, Function.update st2.2 (i, cols - 1) (argminIdx (cdist (st2.1 (i, cols - 1)))))

/-- The full dither traversal (lines 839-856, `freq_mul = 0` path): rows
`0 .. rows-2` in raster order via `ditherRow`, then plain nearest-tile
assignments over the last row. -/
def ditherLoop (cdist : List ℚ → List ℚ) (img_keys : List (List ℚ)) (rows cols : ℕ)
    (g : ℕ × ℕ → List ℚ) : (ℕ × ℕ → List ℚ) × (ℕ × ℕ → ℕ) :=
  let st := (List.range (rows - 1)).foldl
    (fun s i => ditherRow cdist img_keys cols i s) (g, fun _ => 0)
  (List.range cols).foldl (fun s j =>
    (s.1, Function.update s.2 (rows - 1, j) (argminIdx (cdist (s.1 (rows - 1, j)))))) st

theorem ditherStep_fst_apply (cdist : List ℚ → List ℚ) (img_keys : List (List ℚ))
    (g : ℕ × ℕ → List ℚ) (i j : ℕ) (p : ℕ × ℕ) :
    (ditherStep cdist img_keys g i j).1 p =
      (if p = (i, j + 1) then
        vadd (g p) (smulL (7/16) (ditherErr cdist img_keys (g (i, j))))
      else if p = (i + 1, j - 1) then
        vadd (g p) (smulL (3/16) (ditherErr cdist img_keys (g (i, j))))
      else if p = (i + 1, j) then
        vadd (g p) (smulL (5/16) (ditherErr cdist img_keys (g (i, j))))
      else if p = (i + 1, j + 1) then
        vadd (g p) (smulL (1/16) (ditherErr cdist img_keys (g (i, j))))
      else g p) := rfl

theorem dither_weights_sum (e : List ℚ) :
    vadd (smulL (7/16) e) (vadd (smulL (3/16) e) (vadd (smulL (5/16) e) (smulL (1/16) e))) = e := by
  induction e with
  | nil => rfl
  | cons x xs ih =>
    simp only [vadd, smulL, List.map_cons, List.zipWith_cons_cons] at *
    rw [ih]
    have hx : (7:ℚ)/16 * x + (3/16 * x + (5/16 * x + 1/16 * x)) = x := by ring
    rw [hx]

/-- Claim C5, counterexample: the claim defines the diffused quantization
error as the chosen tile's color vector *minus* the destination block
vector (tile − block), but line 848 computes
`block - self.img_keys[best_i]` (block − tile).  Concretely: with sole tile
`[0, 0]` and every block `[1, 1]`, the interior step at `(0, 1)` sets the
right neighbor to `[1,1] + 7/16·([1,1] − [0,0]) = [23/16, 23/16]`, whereas
the claim's tile-minus-block error would give
`[1,1] + 7/16·([0,0] − [1,1]) = [9/16, 9/16]` — a different vector. -/
theorem ditherStep_counterexample :
    (ditherStep (cdistRow Metric.euclidean id [[0, 0]]) [[0, 0]]
        (fun _ => [1, 1]) 0 1).1 (0, 2) = [23/16, 23/16] ∧
    vadd [1, 1] (smulL (7/16) (vsub ([0, 0] : List ℚ) [1, 1])) = [9/16, 9/16] ∧
    ([23/16, 23/16] : List ℚ) ≠ [9/16, 9/16] := by
  refine ⟨?_, ?_, ?_⟩
  · rw [ditherStep_fst_apply, if_pos (show ((0:ℕ), (2:ℕ)) = ((0:ℕ), 1 + 1) by norm_num)]
    norm_num [ditherErr, cdistRow, fast_sq_euclidean, sqSum, dotL, argminIdx,
      vadd, vsub, smulL]
  · norm_num [vadd, vsub, smulL]
  · norm_num

/-- Claim C5 (amended): in the dithered unfair assignment, blocks are
processed in raster order (rows ascending, columns ascending inside a row —
`ditherRow` / `ditherLoop`), and at every interior block `(i, j)` (not
first column, not last column, not last row — exactly the blocks
`ditherRow` feeds to `ditherStep`) the entire quantization error — the
*destination block vector minus the chosen tile's color vector*
(`block - img_keys[best_i]`, the opposite sign to the claim's wording) —
is diffused to the four not-yet-processed neighbors — right with weight
7/16, below-left 3/16, below 5/16, below-right 1/16 — before those
neighbors are evaluated: every updated cell lies strictly later in raster
order, all other cells are untouched, and the four weights sum to 1, so
the four added contributions sum to the full error vector. -/
theorem ditherStep_spec (cdist : List ℚ → List ℚ) (img_keys : List (List ℚ))
    (g : ℕ × ℕ → List ℚ) (i j cols : ℕ) (hj : 1 ≤ j) (hjc : j + 2 ≤ cols) :
    (ditherStep cdist img_keys g i j).1 (i, j + 1) =
      vadd (g (i, j + 1)) (smulL (7/16) (ditherErr cdist img_keys (g (i, j)))) ∧
    (ditherStep cdist img_keys g i j).1 (i + 1, j - 1) =
      vadd (g (i + 1, j - 1)) (smulL (3/16) (ditherErr cdist img_keys (g (i, j)))) ∧
    (ditherStep cdist img_keys g i j).1 (i + 1, j) =
      vadd (g (i + 1, j)) (smulL (5/16) (ditherErr cdist img_keys (g (i, j)))) ∧
    (ditherStep cdist img_keys g i j).1 (i + 1, j + 1) =
      vadd (g (i + 1, j + 1)) (smulL (1/16) (ditherErr cdist img_keys (g (i, j)))) ∧
    (∀ p, p ∉ [(i, j + 1), (i + 1, j - 1), (i + 1, j), (i + 1, j + 1)] →
      (ditherStep cdist img_keys g i j).1 p = g p) ∧
    (∀ p ∈ [(i, j + 1), (i + 1, j - 1), (i + 1, j), (i + 1, j + 1)],
      i * cols + j < p.1 * cols + p.2) ∧
    vadd (smulL (7/16) (ditherErr cdist img_keys (g (i, j))))
      (vadd (smulL (3/16) (ditherErr cdist img_keys (g (i, j))))
        (vadd (smulL (5/16) (ditherErr cdist img_keys (g (i, j))))
          (smulL (1/16) (ditherErr cdist img_keys (g (i, j)))))) =
      ditherErr cdist img_keys (g (i, j)) := by
  have hne1 : ((i + 1, j - 1) : ℕ × ℕ) ≠ (i, j + 1) := by
    intro hcontra
    simp only [Prod.mk.injEq] at hcontra
    omega
  have hne2 : ((i + 1, j) : ℕ × ℕ) ≠ (i, j + 1) := by
    intro hcontra
    simp only [Prod.mk.injEq] at hcontra
    omega
  have hne3 : ((i + 1, j) : ℕ × ℕ) ≠ (i + 1, j - 1) := by
    intro hcontra
    simp only [Prod.mk.injEq] at hcontra
    omega
  have hne4 : ((i + 1, j + 1) : ℕ × ℕ) ≠ (i, j + 1) := by
    intro hcontra
    simp only [Prod.mk.injEq] at hcontra
    omega
  have hne5 : ((i + 1, j + 1) : ℕ × ℕ) ≠ (i + 1, j - 1) := by
    intro hcontra
    simp only [Prod.mk.injEq] at hcontra
    omega
  have hne6 : ((i + 1, j + 1) : ℕ × ℕ) ≠ (i + 1, j) := by
    intro hcontra
    simp only [Prod.mk.injEq] at hcontra
    omega
  refine ⟨?_, ?_, ?_, ?_, ?_, ?_, dither_weights_sum _⟩
  · rw [ditherStep_fst_apply, if_pos rfl]
  · rw [ditherStep_fst_apply, if_neg hne1, if_pos rfl]
  · rw [ditherStep_fst_apply, if_neg hne2, if_neg hne3, if_pos rfl]
  · rw [ditherStep_fst_apply, if_neg hne4, if_neg hne5, if_neg hne6, if_pos rfl]
  · intro p hp
    simp only [List.mem_cons, List.not_mem_nil, or_false, not_or] at hp
    obtain ⟨h1, h2, h3, h4⟩ := hp
    rw [ditherStep_fst_apply, if_neg h1, if_neg h2, if_neg h3, if_neg h4]
  · intro p hp
    have hic : (i + 1) * cols = i * cols + cols := by ring
    simp only [List.mem_cons, List.not_mem_nil, or_false] at hp
    rcases hp with rfl | rfl | rfl | rfl <;> dsimp only <;> omega

/-- Witness for claim C5: a concrete interior step on a 3-column grid
(`i = 0`, `j = 1`), with the euclidean distance to a single 2-vector tile. -/
theorem ditherStep_spec_witness :
    1 ≤ 1 ∧ 1 + 2 ≤ 3 ∧
    ((ditherStep (cdistRow Metric.euclidean id [[0, 0]]) [[0, 0]]
        (fun _ => [1, 1]) 0 1).1 (0, 1 + 1) =
      vadd ((fun (_ : ℕ × ℕ) => ([1, 1] : List ℚ)) (0, 1 + 1))
        (smulL (7/16) (ditherErr (cdistRow Metric.euclidean id [[0, 0]]) [[0, 0]]
          ((fun (_ : ℕ × ℕ) => ([1, 1] : List ℚ)) (0, 1)))) ∧
    (ditherStep (cdistRow Metric.euclidean id [[0, 0]]) [[0, 0]]
        (fun _ => [1, 1]) 0 1).1 (0 + 1, 1 - 1) =
      vadd ((fun (_ : ℕ × ℕ) => ([1, 1] : List ℚ)) (0 + 1, 1 - 1))
        (smulL (3/16) (ditherErr (cdistRow Metric.euclidean id [[0, 0]]) [[0, 0]]
          ((fun (_ : ℕ × ℕ) => ([1, 1] : List ℚ)) (0, 1)))) ∧
    (ditherStep (cdistRow Metric.euclidean id [[0, 0]]) [[0, 0]]
        (fun _ => [1, 1]) 0 1).1 (0 + 1, 1) =
      vadd ((fun (_ : ℕ × ℕ) => ([1, 1] : List ℚ)) (0 + 1, 1))
        (smulL (5/16) (ditherErr (cdistRow Metric.euclidean id [[0, 0]]) [[0, 0]]
          ((fun (_ : ℕ × ℕ) => ([1, 1] : List ℚ)) (0, 1)))) ∧
    (ditherStep (cdistRow Metric.euclidean id [[0, 0]]) [[0, 0]]
        (fun _ => [1, 1]) 0 1).1 (0 + 1, 1 + 1) =
      vadd ((fun (_ : ℕ × ℕ) => ([1, 1] : List ℚ)) (0 + 1, 1 + 1))
        (smulL (1/16) (ditherErr (cdistRow Metric.euclidean id [[0, 0]]) [[0, 0]]
          ((fun (_ : ℕ × ℕ) => ([1, 1] : List ℚ)) (0, 1)))) ∧
    (∀ p, p ∉ [((0 : ℕ), (1 : ℕ) + 1), (0 + 1, 1 - 1), (0 + 1, 1), (0 + 1, 1 + 1)] →
      (ditherStep (cdistRow Metric.euclidean id [[0, 0]]) [[0, 0]]
        (fun _ => [1, 1]) 0 1).1 p = (fun (_ : ℕ × ℕ) => ([1, 1] : List ℚ)) p) ∧
    (∀ p ∈ [((0 : ℕ), (1 : ℕ) + 1), (0 + 1, 1 - 1), (0 + 1, 1), (0 + 1, 1 + 1)],
      0 * 3 + 1 < p.1 * 3 + p.2) ∧
    vadd (smulL (7/16) (ditherErr (cdistRow Metric.euclidean id [[0, 0]]) [[0, 0]]
        ((fun (_ : ℕ × ℕ) => ([1, 1] : List ℚ)) (0, 1))))
      (vadd (smulL (3/16) (ditherErr (cdistRow Metric.euclidean id [[0, 0]]) [[0, 0]]
          ((fun (_ : ℕ × ℕ) => ([1, 1] : List ℚ)) (0, 1))))
        (vadd (smulL (5/16) (ditherErr (cdistRow Metric.euclidean id [[0, 0]]) [[0, 0]]
            ((fun (_ : ℕ × ℕ) => ([1, 1] : List ℚ)) (0, 1))))
          (smulL (1/16) (ditherErr (cdistRow Metric.euclidean id [[0, 0]]) [[0, 0]]
            ((fun (_ : ℕ × ℕ) => ([1, 1] : List ℚ)) (0, 1)))))) =
      ditherErr (cdistRow Metric.euclidean id [[0, 0]]) [[0, 0]]
        ((fun (_ : ℕ × ℕ) => ([1, 1] : List ℚ)) (0, 1))) :=
  ⟨by decide, by decide,
    ditherStep_spec (cdistRow Metric.euclidean id [[0, 0]]) [[0, 0]]
      (fun _ => [1, 1]) 0 1 3 (by decide) (by decide)⟩

/-- The NumPy `<U1` truncation: `tile_info = np.full(grid, "background", dtype=str)`
(line 245) creates an array of dtype `<U1` (one Unicode character), so every
label later assigned into it (`tile_info[i, j] = tile.info`, line 266) is
silently truncated to its first character.  Modelled on the character list
to stay kernel-computable. -/
def truncU1 (s : String) : String := String.mk (s.data.take 1)

/-- The per-cell lines of the tile ledger produced by `make_collage_helper`
(lines 242-276, non-masked path): the tile list is laid out row-major into
the `(rows, cols)`-shaped array and each cell stores `tile.info`, truncated
by the `<U1` dtype; flattening (line 276) restores the row-major label
order. -/
def tileLedgerLines (labels : List String) : List String := labels.map truncU1

/-- The full ledger text, line 276:
`f"Grid dimension: {grid[::-1]}\n" + "\n".join(tile_info.flatten())`.
The incoming `(width, height)` grid was reversed at line 243, so the header
interpolates the twice-reversed, i.e. original, `(width, height)` pair —
`(columns, rows)` — and the truncated entries follow, one line per cell. -/
def tileLedger (gw gh : ℕ) (labels : List String) : String :=
  "Grid dimension: (" ++ toString gw ++ ", " ++ toString gh ++ ")\n" ++
    String.intercalate "\n" (tileLedgerLines labels)

/-- Claim C7, counterexample: for a 3×2 (columns×rows) grid with six tiles
labelled `alpha.png` … `zeta.png`, the produced ledger starts with
`Grid dimension: (3, 2)` — the `(columns, rows)` order, not the claimed
`(rows, cols)` — and each entry is only the first character of the label
(an effect of the `<U1` dtype), not the full label the claim requires. -/
theorem tileLedger_counterexample :
    tileLedger 3 2 ["alpha.png", "beta.png", "gamma.png", "delta.png", "eps.png", "zeta.png"] =
      "Grid dimension: (3, 2)\na\nb\ng\nd\ne\nz" ∧
    "Grid dimension: (3, 2)\na\nb\ng\nd\ne\nz" ≠
      "Grid dimension: (2, 3)\nalpha.png\nbeta.png\ngamma.png\ndelta.png\neps.png\nzeta.png" := by
  constructor
  · rfl
  · decide

/-- Claim C7 (amended): for every composed (non-masked) mosaic whose tile
list matches the grid size, the ledger consists of a first line reading
`Grid dimension: (cols, rows)` followed by exactly one entry per grid cell
in row-major order, each entry being the *first character* of the label of
the tile placed in that cell (labels, including the `"background"` label of
padding tiles, are truncated to one character by the ledger array's `<U1`
dtype). -/
theorem tileLedger_spec (gw gh : ℕ) (labels : List String)
    (h : labels.length = gw * gh) :
    (tileLedgerLines labels).length = gw * gh ∧
    (∀ k, k < gw * gh → (tileLedgerLines labels).getD k "" =
      String.mk ((labels.getD k "").data.take 1)) ∧
    tileLedger gw gh labels =
      "Grid dimension: (" ++ toString gw ++ ", " ++ toString gh ++ ")\n" ++
        String.intercalate "\n" (tileLedgerLines labels) := by
  refine ⟨by simp [tileLedgerLines, h], ?_, rfl⟩
  intro k hk
  have hk' : k < labels.length := by omega
  rw [List.getD_eq_getElem?_getD, tileLedgerLines, List.getElem?_map,
    List.getElem?_eq_getElem hk']
  rw [List.getD_eq_getElem?_getD, List.getElem?_eq_getElem hk']
  rfl

/-- Witness for claim C7 (amended) at a 1×1 grid with one tile. -/
theorem tileLedger_spec_witness :
    (["x.png"] : List String).length = 1 * 1 ∧
    ((tileLedgerLines ["x.png"]).length = 1 * 1 ∧
     (∀ k, k < 1 * 1 → (tileLedgerLines ["x.png"]).getD k "" =
       String.mk (((["x.png"] : List String).getD k "").data.take 1)) ∧
     tileLedger 1 1 ["x.png"] =
       "Grid dimension: (" ++ toString 1 ++ ", " ++ toString 1 ++ ")\n" ++
         String.intercalate "\n" (tileLedgerLines ["x.png"])) :=
  ⟨by decide, tileLedger_spec 1 1 ["x.png"] (by decide)⟩

theorem getD_eq_getElem {α : Type} (l : List α) (n : ℕ) (h : n < l.length) (d : α) :
    l.getD n d = l[n] := by
  rw [List.getD_eq_getElem?_getD, List.getElem?_eq_getElem h]
  rfl

theorem getD_set_eq (l : List ℕ) (i : ℕ) (v d : ℕ) (h : i < l.length) :
    (l.set i v).getD i d = v := by
  rw [getD_eq_getElem _ _ (by rw [List.length_set]; exact h)]
  exact List.getElem_set_self _

theorem getD_set_ne (l : List ℕ) (i j : ℕ) (v d : ℕ) (h : i ≠ j) :
    (l.set i v).getD j d = l.getD j d := by
  rw [List.getD_eq_getElem?_getD, List.getD_eq_getElem?_getD, List.getElem?_set_ne h]

theorem getD_replicate_zero (n i : ℕ) : (List.replicate n (0 : ℕ)).getD i 0 = 0 := by
  rw [List.getD_eq_getElem?_getD, List.getElem?_replicate]
  split <;> rfl

theorem argminIdx_lt : ∀ (l : List ℚ), l ≠ [] → argminIdx l < l.length := by
  intro l
  induction l with
  | nil => intro h; exact absurd rfl h
  | cons x xs ih =>
    intro _
    show (if x ≤ xs.getD (argminIdx xs) x then 0 else argminIdx xs + 1) < xs.length + 1
    by_cases hc : x ≤ xs.getD (argminIdx xs) x
    · rw [if_pos hc]; omega
    · rw [if_neg hc]
      rcases xs with _ | ⟨y, ys⟩
      · exact absurd (le_refl x) hc
      · have := ih (by simp)
        simpa using this

theorem argminIdx_le : ∀ (l : List ℚ) (k : ℕ), k < l.length →
    l.getD (argminIdx l) 0 ≤ l.getD k 0 := by
  intro l
  induction l with
  | nil => intro k hk; simp at hk
  | cons x xs ih =>
    intro k hk
    show (x :: xs).getD (if x ≤ xs.getD (argminIdx xs) x then 0 else argminIdx xs + 1) 0 ≤
      (x :: xs).getD k 0
    by_cases hc : x ≤ xs.getD (argminIdx xs) x
    · rw [if_pos hc, List.getD_cons_zero]
      rcases k with _ | k'
      · rw [List.getD_cons_zero]
      · rw [List.getD_cons_succ]
        rcases xs with _ | ⟨y, ys⟩
        · simp at hk
        · have hin : argminIdx (y :: ys) < (y :: ys).length := argminIdx_lt _ (by simp)
          have heq : (y :: ys).getD (argminIdx (y :: ys)) x =
              (y :: ys).getD (argminIdx (y :: ys)) 0 := by
            rw [getD_eq_getElem _ _ hin, getD_eq_getElem _ _ hin]
          rw [heq] at hc
          exact le_trans hc (ih k' (by simpa using hk))
    · rw [if_neg hc, List.getD_cons_succ]
      rcases xs with _ | ⟨y, ys⟩
      · exact absurd (le_refl x) hc
      · have hin : argminIdx (y :: ys) < (y :: ys).length := argminIdx_lt _ (by simp)
        have heq : (y :: ys).getD (argminIdx (y :: ys)) x =
            (y :: ys).getD (argminIdx (y :: ys)) 0 := by
          rw [getD_eq_getElem _ _ hin, getD_eq_getElem _ _ hin]
        rw [heq] at hc
        push_neg at hc
        rcases k with _ | k'
        · rw [List.getD_cons_zero]
          exact le_of_lt hc
        · rw [List.getD_cons_succ]
          exact ih k' (by simpa using hk)

/-- The stable rank of index `j` in a distance row: the number of indices
whose key `(value, index)` lexicographically precedes `j`'s.  This models
the in-place rank transform `dist[cp.argsort(dist)] = self.temp` (lines
772-773, 781-782, 794-795, 802, 813, 826): after the scatter, entry `j`
holds `j`'s position in the argsort of the row, with argsort's tie order
taken as the stable index order. -/
def rankOf (row : List ℚ) (j : ℕ) : ℕ :=
  ((List.range row.length).filter
    (fun i => decide (row.getD i 0 < row.getD j 0 ∨
      (row.getD i 0 = row.getD j 0 ∧ i < j)))).length

/-- The rank-transformed distance row (`self.temp` is `arange(num_cols)` in
float32, line 707). -/
def rankRow (row : List ℚ) : List ℚ :=
  (List.range row.length).map (fun j => (rankOf row j : ℚ))

/-- One step of the frequency-balanced assignment loop (lines 815-823,
827-836): the rank-transformed row plus the accumulated penalty
`indices_freq` — which equals `usage_count * freq_mul` exactly, since
`indices_freq[idx] += freq_mul` runs once per use of tile `idx` — is
minimized with `argmin`, and the chosen tile's usage count increments. -/
def freqStep (freq_mul : ℚ) (counts : List ℕ) (row : List ℚ) : List ℕ :=
  let scores := List.zipWith (fun r (c : ℕ) => r + (c : ℚ) * freq_mul) (rankRow row) counts
  let idx := argminIdx scores
  counts.set idx (counts.getD idx 0 + 1)

/-- The frequency-balanced loop over all destination rows.  The chunked
structure of lines 811-836 rank-transforms each row independently
(`argsort(dist_mat, axis=1)`) and consumes rows one at a time while the
penalties accumulate, so it equals this row-at-a-time fold; the optional
row shuffle only permutes `rows`, over which the theorems quantify. -/
def freqLoop (freq_mul : ℚ) (numTiles : ℕ) (rows : List (List ℚ)) : List ℕ :=
  rows.foldl (freqStep freq_mul) (List.replicate numTiles 0)

theorem rankOf_lt (row : List ℚ) (j : ℕ) (hj : j < row.length) :
    rankOf row j < row.length := by
  unfold rankOf
  have hle := List.length_filter_le
    (fun i => decide (row.getD i 0 < row.getD j 0 ∨
      (row.getD i 0 = row.getD j 0 ∧ i < j))) (List.range row.length)
  rw [List.length_range] at hle
  rcases Nat.lt_or_ge (((List.range row.length).filter
    (fun i => decide (row.getD i 0 < row.getD j 0 ∨
      (row.getD i 0 = row.getD j 0 ∧ i < j)))).length) row.length with h | h
  · exact h
  · exfalso
    have heq : (((List.range row.length).filter
        (fun i => decide (row.getD i 0 < row.getD j 0 ∨
          (row.getD i 0 = row.getD j 0 ∧ i < j)))).length) =
        (List.range row.length).length := by
      rw [List.length_range]; omega
    have hall := List.filter_length_eq_length.mp heq j (List.mem_range.mpr hj)
    simp at hall

theorem score_getD (f : ℚ) (counts : List ℕ) (row : List ℚ) (k : ℕ)
    (hk : k < row.length) (hk2 : k < counts.length) :
    (List.zipWith (fun r (c : ℕ) => r + (c : ℚ) * f) (rankRow row) counts).getD k 0 =
      (rankOf row k : ℚ) + (counts.getD k 0 : ℚ) * f := by
  have hlr : (rankRow row).length = row.length := by simp [rankRow]
  have hkz : k < (List.zipWith (fun r (c : ℕ) => r + (c : ℚ) * f)
      (rankRow row) counts).length := by
    rw [List.length_zipWith]
    omega
  rw [getD_eq_getElem _ _ hkz, List.getElem_zipWith]
  congr 1
  · simp [rankRow]
  · rw [getD_eq_getElem _ _ hk2]

theorem freqStep_min (f : ℚ) (K : ℕ) (hK : 1 ≤ K) (counts : List ℕ) (row : List ℚ)
    (hc : counts.length = K) (hr : row.length = K) (hf : (K : ℚ) ≤ f) :
    argminIdx (List.zipWith (fun r (c : ℕ) => r + (c : ℚ) * f) (rankRow row) counts) < K ∧
    ∀ k, k < K →
      counts.getD (argminIdx (List.zipWith (fun r (c : ℕ) => r + (c : ℚ) * f)
        (rankRow row) counts)) 0 ≤ counts.getD k 0 := by
  have hlr : (rankRow row).length = row.length := by simp [rankRow]
  have hsl : (List.zipWith (fun r (c : ℕ) => r + (c : ℚ) * f)
      (rankRow row) counts).length = K := by
    rw [List.length_zipWith]
    omega
  have hne : (List.zipWith (fun r (c : ℕ) => r + (c : ℚ) * f) (rankRow row) counts) ≠ [] := by
    intro hnil
    rw [hnil] at hsl
    simp at hsl
    omega
  have hidx := argminIdx_lt _ hne
  rw [hsl] at hidx
  refine ⟨hidx, fun k hk => ?_⟩
  by_contra hgt
  push_neg at hgt
  have hle := argminIdx_le
    (List.zipWith (fun r (c : ℕ) => r + (c : ℚ) * f) (rankRow row) counts) k (by omega)
  rw [score_getD f counts row _ (by omega) (by omega),
      score_getD f counts row k (by omega) (by omega)] at hle
  have hrk : ((rankOf row k : ℕ) : ℚ) < (K : ℚ) := by
    have := rankOf_lt row k (by omega)
    rw [hr] at this
    exact_mod_cast this
  have hri : (0 : ℚ) ≤ ((rankOf row (argminIdx (List.zipWith
      (fun r (c : ℕ) => r + (c : ℚ) * f) (rankRow row) counts)) : ℕ) : ℚ) :=
    Nat.cast_nonneg _
  have hcast : (counts.getD k 0 : ℚ) + 1 ≤
      (counts.getD (argminIdx (List.zipWith (fun r (c : ℕ) => r + (c : ℚ) * f)
        (rankRow row) counts)) 0 : ℚ) := by
    exact_mod_cast hgt
  have hf0 : (0 : ℚ) ≤ f := le_trans (Nat.cast_nonneg K) hf
  have hmul : ((counts.getD k 0 : ℚ) + 1) * f ≤
      (counts.getD (argminIdx (List.zipWith (fun r (c : ℕ) => r + (c : ℚ) * f)
        (rankRow row) counts)) 0 : ℚ) * f :=
    mul_le_mul_of_nonneg_right hcast hf0
  nlinarith [hle, hmul, hri, hrk, hf]

theorem freqStep_balanced (f : ℚ) (K : ℕ) (hK : 1 ≤ K) (hf : (K : ℚ) ≤ f)
    (counts : List ℕ) (row : List ℚ) (hc : counts.length = K) (hr : row.length = K)
    (hbal : ∀ i j, i < K → j < K → counts.getD i 0 ≤ counts.getD j 0 + 1) :
    (freqStep f counts row).length = K ∧
    ∀ i j, i < K → j < K →
      (freqStep f counts row).getD i 0 ≤ (freqStep f counts row).getD j 0 + 1 := by
  obtain ⟨hidxlt, hmin⟩ := freqStep_min f K hK counts row hc hr hf
  have hstep : freqStep f counts row =
      counts.set (argminIdx (List.zipWith (fun r (c : ℕ) => r + (c : ℚ) * f)
          (rankRow row) counts))
        (counts.getD (argminIdx (List.zipWith (fun r (c : ℕ) => r + (c : ℚ) * f)
          (rankRow row) counts)) 0 + 1) := rfl
  set idx := argminIdx (List.zipWith (fun r (c : ℕ) => r + (c : ℚ) * f)
    (rankRow row) counts) with hidxdef
  constructor
  · rw [hstep, List.length_set, hc]
  · intro i j hi hj
    rw [hstep]
    by_cases hiidx : idx = i <;> by_cases hjidx : idx = j
    · rw [← hiidx, ← hjidx, getD_set_eq _ _ _ _ (by omega)]
      omega
    · rw [← hiidx, getD_set_eq _ _ _ _ (by omega), getD_set_ne _ _ _ _ _ hjidx]
      have := hmin j hj
      omega
    · rw [← hjidx, getD_set_ne _ _ _ _ _ hiidx, getD_set_eq _ _ _ _ (by omega)]
      have := hbal i idx hi (by omega)
      omega
    · rw [getD_set_ne _ _ _ _ _ hiidx, getD_set_ne _ _ _ _ _ hjidx]
      exact hbal i j hi hj

theorem freqLoop_aux (f : ℚ) (K : ℕ) (hK : 1 ≤ K) (hf : (K : ℚ) ≤ f) :
    ∀ (rows : List (List ℚ)) (counts : List ℕ), counts.length = K →
      (∀ r ∈ rows, r.length = K) →
      (∀ i j, i < K → j < K → counts.getD i 0 ≤ counts.getD j 0 + 1) →
      (rows.foldl (freqStep f) counts).length = K ∧
      ∀ i j, i < K → j < K →
        (rows.foldl (freqStep f) counts).getD i 0 ≤
          (rows.foldl (freqStep f) counts).getD j 0 + 1 := by
  intro rows
  induction rows with
  | nil => intro counts hc _ hbal; exact ⟨hc, hbal⟩
  | cons r rs ih =>
    intro counts hc hrows hbal
    rw [List.foldl_cons]
    obtain ⟨hlen, hbal'⟩ := freqStep_balanced f K hK hf counts r hc (hrows r (by simp)) hbal
    exact ih (freqStep f counts r) hlen (fun r' hr' => hrows r' (by simp [hr'])) hbal'

/-- Claim C3: for every tile count `K ≥ 1` and every sequence of distance
rows of length `K` (i.e. for every destination image, tile pool and
underlying color distances, in any processing order), there is a threshold
`M` — here `M = K` — such that for every `freq_mul ≥ M` the finished
frequency-balanced assignment's per-tile usage counts satisfy
`max usage - min usage ≤ 1` (stated as: every count is at most every other
count plus one).  The rank transform bounds each penalized rank by `K - 1`,
so once `freq_mul ≥ K` a tile already used more often than another can
never be chosen, and usage stays within ±1 of uniform regardless of the
distances. -/
theorem freqLoop_uniform (K : ℕ) (rows : List (List ℚ)) (hK : 1 ≤ K)
    (hrows : ∀ r ∈ rows, r.length = K) :
    ∃ M : ℚ, ∀ freq_mul : ℚ, M ≤ freq_mul →
      ∀ i j, i < K → j < K →
        (freqLoop freq_mul K rows).getD i 0 ≤ (freqLoop freq_mul K rows).getD j 0 + 1 := by
  refine ⟨(K : ℚ), fun f hf i j hi hj => ?_⟩
  have h0 : (List.replicate K (0 : ℕ)).length = K := by simp
  have hb0 : ∀ i j, i < K → j < K →
      (List.replicate K (0 : ℕ)).getD i 0 ≤ (List.replicate K (0 : ℕ)).getD j 0 + 1 := by
    intro i j _ _
    rw [getD_replicate_zero, getD_replicate_zero]
    omega
  exact (freqLoop_aux f K hK hf rows _ h0 hrows hb0).2 i j hi hj

/-- Witness for claim C3 at a concrete 1-tile pool and one distance row. -/
theorem freqLoop_uniform_witness :
    1 ≤ 1 ∧ (∀ r ∈ ([[0]] : List (List ℚ)), r.length = 1) ∧
    (∃ M : ℚ, ∀ freq_mul : ℚ, M ≤ freq_mul →
      ∀ i j, i < 1 → j < 1 →
        (freqLoop freq_mul 1 [[0]]).getD i 0 ≤ (freqLoop freq_mul 1 [[0]]).getD j 0 + 1) :=
  ⟨by decide, by intro r hr; rw [List.mem_singleton] at hr; rw [hr]; rfl,
    freqLoop_uniform 1 [[0]] (by decide)
      (by intro r hr; rw [List.mem_singleton] at hr; rw [hr]; rfl)⟩
